import Mathlib

/-!
Verification of the cost-scaling min-cost-flow solver (`graph/min_cost_flow.h`)
and of the range constraints (`constraint_solver/range_cst.cc`).

The repository sources contain the full implementation of the range
constraints, and the header of the min-cost-flow solver (declarations and
documentation comments; the corresponding `.cc` bodies are not part of the
sources).  Where a body is missing, the definitions below are modelled from
the specification and the header comments; each such definition carries a
doc comment starting with `Modelled from the spec:`.

Conventions for the min-cost-flow model, following the header:
arc indices are signed integers; forward (direct) arcs carry indices
`0, 1, ..., m-1` and their paired reverse arcs carry `-1, -2, ..., -m`,
with `Opposite a = -a - 1` (the `StarGraph` convention).  Tails, heads and
scaled unit costs of reverse arcs are derived from their forward partner,
which bakes in the invariants `tail(opposite a) = head a`,
`head(opposite a) = tail a` and `scaled_unit_cost[opposite a] =
-scaled_unit_cost[a]` exactly as `ScaleCosts` stores them.
-/

namespace OrTools

/-- The `MinCostFlowBase::Status` enumeration from `min_cost_flow.h`. -/
inductive Status where
  | NOT_SOLVED
  | OPTIMAL
  | FEASIBLE
  | INFEASIBLE
  | UNBALANCED
  | BAD_RESULT
  | BAD_COST_RANGE
  deriving DecidableEq, Repr

/-- Modelled from the spec: the graph adapter (§4.A).  A fixed topology given
by the number of nodes and the list of forward arcs as (tail, head) pairs;
`numArcs` counts forward arcs only. -/
structure FlowGraph where
  numNodes : Nat
  arcs : List (Nat × Nat)
  deriving DecidableEq, Repr

namespace FlowGraph

/-- Number of forward arcs of the graph. -/
def numArcs (G : FlowGraph) : Nat := G.arcs.length

/-- The paired reverse arc: `Opposite a = -a - 1`, an involution exchanging
the forward range `[0, m)` and the reverse range `[-m, 0)`. -/
def Opposite (a : Int) : Int := -a - 1

/-- `IsArcDirect`: forward arcs carry nonnegative indices. -/
def IsArcDirect (a : Int) : Bool := decide (0 ≤ a)

/-- Index of the forward partner of an arc (the arc itself when direct). -/
def forwardOf (a : Int) : Nat := if 0 ≤ a then a.toNat else (-a - 1).toNat

/-- The (tail, head) pair of the forward partner of `a`. -/
def arcPair (G : FlowGraph) (a : Int) : Nat × Nat := G.arcs.getD (forwardOf a) (0, 0)

/-- Tail of an arc: the stored tail for a direct arc, the stored head of the
forward partner for a reverse arc. -/
def Tail (G : FlowGraph) (a : Int) : Nat :=
  if 0 ≤ a then (G.arcPair a).1 else (G.arcPair a).2

/-- Head of an arc: the stored head for a direct arc, the stored tail of the
forward partner for a reverse arc. -/
def Head (G : FlowGraph) (a : Int) : Nat :=
  if 0 ≤ a then (G.arcPair a).2 else (G.arcPair a).1

/-- An arc index is valid when it lies in `[-m, m)`. -/
def IsArcValid (G : FlowGraph) (a : Int) : Prop :=
  -(G.numArcs : Int) ≤ a ∧ a < (G.numArcs : Int)

/-- The list of all (direct and reverse) arc indices of the graph. -/
def allArcs (G : FlowGraph) : List Int :=
  ((List.range G.numArcs).map (fun i : Nat => (i : Int))) ++
    ((List.range G.numArcs).map (fun i : Nat => -(i : Int) - 1))

theorem Opposite_Opposite (a : Int) : Opposite (Opposite a) = a := by
  simp [Opposite]

theorem Opposite_ne (a : Int) : Opposite a ≠ a := by
  simp only [Opposite]
  omega

theorem forwardOf_Opposite (a : Int) : forwardOf (Opposite a) = forwardOf a := by
  simp only [forwardOf, Opposite]
  split_ifs <;> omega

theorem Tail_Opposite (G : FlowGraph) (a : Int) : Tail G (Opposite a) = Head G a := by
  unfold Tail Head arcPair
  rw [forwardOf_Opposite]
  rcases le_or_lt 0 a with h | h
  · have h1 : ¬ (0 ≤ Opposite a) := by simp only [Opposite]; omega
    rw [if_pos h, if_neg h1]
  · have h1 : 0 ≤ Opposite a := by simp only [Opposite]; omega
    have h2 : ¬ (0 ≤ a) := by omega
    rw [if_neg h2, if_pos h1]

theorem Head_Opposite (G : FlowGraph) (a : Int) : Head G (Opposite a) = Tail G a := by
  unfold Tail Head arcPair
  rw [forwardOf_Opposite]
  rcases le_or_lt 0 a with h | h
  · have h1 : ¬ (0 ≤ Opposite a) := by simp only [Opposite]; omega
    rw [if_pos h, if_neg h1]
  · have h1 : 0 ≤ Opposite a := by simp only [Opposite]; omega
    have h2 : ¬ (0 ≤ a) := by omega
    rw [if_neg h2, if_pos h1]

theorem mem_allArcs (G : FlowGraph) (a : Int) :
    a ∈ allArcs G ↔ IsArcValid G a := by
  unfold allArcs IsArcValid
  constructor
  · intro h
    rcases List.mem_append.1 h with h | h
    · obtain ⟨i, hi, rfl⟩ := List.mem_map.1 h
      rw [List.mem_range] at hi
      omega
    · obtain ⟨i, hi, rfl⟩ := List.mem_map.1 h
      rw [List.mem_range] at hi
      omega
  · rintro ⟨h1, h2⟩
    rcases le_or_lt 0 a with h | h
    · exact List.mem_append.2 (Or.inl (List.mem_map.2
        ⟨a.toNat, List.mem_range.2 (by omega), by omega⟩))
    · exact List.mem_append.2 (Or.inr (List.mem_map.2
        ⟨(-a - 1).toNat, List.mem_range.2 (by omega), by omega⟩))

theorem Opposite_mem_allArcs (G : FlowGraph) (a : Int) (h : a ∈ allArcs G) :
    Opposite a ∈ allArcs G := by
  rw [mem_allArcs] at h ⊢
  unfold Opposite
  unfold IsArcValid at h ⊢
  omega

end FlowGraph

export FlowGraph (Opposite)

/-- Modelled from the spec: the residual state (§4.B) of `GenericMinCostFlow`.
`excess`, `potential` are per-node arrays (`node_excess_`, `node_potential_`),
`residual` is `residual_arc_capacity_` (indexed by signed arc index), and
`forwardCost` holds `scaled_arc_unit_cost_` for the forward arcs; the reverse
arc cost is its negation, as stored by `ScaleCosts`. -/
structure FlowState where
  graph : FlowGraph
  excess : Nat → Int
  potential : Nat → Int
  residual : Int → Int
  forwardCost : Nat → Int
  epsilon : Int

namespace FlowState

open FlowGraph

/-- Scaled unit cost of an arc: the stored forward cost for a direct arc and
its negation for a reverse arc. -/
def scaledUnitCost (s : FlowState) (a : Int) : Int :=
  if 0 ≤ a then s.forwardCost a.toNat else -(s.forwardCost (-a - 1).toNat)

/-- Modelled from the spec: `ReducedCost(a) = scaled_unit_cost[a] +
potential[Tail(a)] - potential[Head(a)]` (body of
`GenericMinCostFlow::ReducedCost` is not in the sources). -/
def ReducedCost (s : FlowState) (a : Int) : Int :=
  s.scaledUnitCost a + s.potential (Tail s.graph a) - s.potential (Head s.graph a)

/-- Modelled from the spec: `FastReducedCost(a, p)` uses the caller-supplied
tail potential `p` instead of re-reading it. -/
def FastReducedCost (s : FlowState) (a : Int) (tailPotential : Int) : Int :=
  s.scaledUnitCost a + tailPotential - s.potential (Head s.graph a)

/-- Modelled from the spec: `IsAdmissible(a)` holds iff the residual capacity
of `a` is strictly positive and its reduced cost strictly negative (body of
`GenericMinCostFlow::IsAdmissible` is not in the sources). -/
def IsAdmissible (s : FlowState) (a : Int) : Bool :=
  decide (0 < s.residual a) && decide (s.ReducedCost a < 0)

/-- Modelled from the spec: `FastIsAdmissible(a, p)`, the variant of
`IsAdmissible` taking the tail potential as an argument. -/
def FastIsAdmissible (s : FlowState) (a : Int) (tailPotential : Int) : Bool :=
  decide (0 < s.residual a) && decide (s.FastReducedCost a tailPotential < 0)

/-- Modelled from the spec: `PushFlow(amount, a)` consumes `amount` on
`residual_arc_capacity_[a]`, adds it on the opposite arc, and updates
`node_excess_` at the tail and the head of `a`, in that order. -/
def PushFlow (s : FlowState) (amount : Int) (a : Int) : FlowState :=
  let r1 := Function.update s.residual a (s.residual a - amount)
  let r2 := Function.update r1 (Opposite a) (r1 (Opposite a) + amount)
  let e1 := Function.update s.excess (Tail s.graph a) (s.excess (Tail s.graph a) - amount)
  let e2 := Function.update e1 (Head s.graph a) (e1 (Head s.graph a) + amount)
  { s with residual := r2, excess := e2 }

/-- Modelled from the spec: `Flow(a)` is `residual_arc_capacity_[Opposite(a)]`
for a direct arc and `-residual_arc_capacity_[a]` for a reverse arc, per the
equations in the comment on `residual_arc_capacity_`. -/
def Flow (s : FlowState) (a : Int) : Int :=
  if 0 ≤ a then s.residual (Opposite a) else -(s.residual a)

/-- Epsilon-optimality: every arc with strictly positive residual capacity has
reduced cost at least `-epsilon`. -/
def EpsOptimal (s : FlowState) : Prop :=
  ∀ a ∈ allArcs s.graph, 0 < s.residual a → -s.epsilon ≤ s.ReducedCost a

instance (s : FlowState) : Decidable s.EpsOptimal := by
  unfold EpsOptimal
  infer_instance

/-- Modelled from the spec: `CheckResult` checks that for each arc,
`residual_arc_capacity_[arc] == 0 || ReducedCost(arc) >= -epsilon_`, per its
header comment (the body is not in the sources). -/
def CheckResult (s : FlowState) : Bool :=
  (allArcs s.graph).all fun a =>
    (s.residual a == 0) || decide (-s.epsilon ≤ s.ReducedCost a)

theorem scaledUnitCost_Opposite (s : FlowState) (a : Int) :
    s.scaledUnitCost (Opposite a) = -(s.scaledUnitCost a) := by
  simp only [scaledUnitCost, Opposite]
  rcases le_or_lt 0 a with h | h
  · have h1 : ¬ (0 ≤ -a - 1) := by omega
    have h2 : (-(-a - 1) - 1).toNat = a.toNat := by omega
    rw [if_pos h, if_neg h1, h2]
  · have h1 : 0 ≤ -a - 1 := by omega
    have h2 : ¬ (0 ≤ a) := by omega
    have h3 : (-a - 1).toNat = (-a - 1).toNat := rfl
    rw [if_neg h2, if_pos h1, neg_neg]

theorem ReducedCost_Opposite (s : FlowState) (a : Int) :
    s.ReducedCost (Opposite a) = -(s.ReducedCost a) := by
  unfold ReducedCost
  rw [scaledUnitCost_Opposite, Tail_Opposite, Head_Opposite]
  ring

theorem PushFlow_graph (s : FlowState) (amount a : Int) :
    (s.PushFlow amount a).graph = s.graph := rfl

theorem PushFlow_potential (s : FlowState) (amount a : Int) :
    (s.PushFlow amount a).potential = s.potential := rfl

theorem PushFlow_forwardCost (s : FlowState) (amount a : Int) :
    (s.PushFlow amount a).forwardCost = s.forwardCost := rfl

theorem PushFlow_epsilon (s : FlowState) (amount a : Int) :
    (s.PushFlow amount a).epsilon = s.epsilon := rfl

theorem PushFlow_ReducedCost (s : FlowState) (amount a b : Int) :
    (s.PushFlow amount a).ReducedCost b = s.ReducedCost b := rfl

theorem PushFlow_residual_self (s : FlowState) (amount a : Int) :
    (s.PushFlow amount a).residual a = s.residual a - amount := by
  unfold PushFlow
  simp only
  rw [Function.update_noteq (Ne.symm (Opposite_ne a)), Function.update_same]

theorem PushFlow_residual_opposite (s : FlowState) (amount a : Int) :
    (s.PushFlow amount a).residual (Opposite a) = s.residual (Opposite a) + amount := by
  unfold PushFlow
  simp only
  rw [Function.update_same, Function.update_noteq (Opposite_ne a)]

theorem PushFlow_residual_other (s : FlowState) (amount a b : Int)
    (hb : b ≠ a) (hb2 : b ≠ Opposite a) :
    (s.PushFlow amount a).residual b = s.residual b := by
  unfold PushFlow
  simp only
  rw [Function.update_noteq hb2, Function.update_noteq hb]

theorem PushFlow_excess_tail (s : FlowState) (amount a : Int)
    (h : Tail s.graph a ≠ Head s.graph a) :
    (s.PushFlow amount a).excess (Tail s.graph a) = s.excess (Tail s.graph a) - amount := by
  unfold PushFlow
  simp only
  rw [Function.update_noteq h, Function.update_same]

theorem PushFlow_excess_head (s : FlowState) (amount a : Int)
    (h : Tail s.graph a ≠ Head s.graph a) :
    (s.PushFlow amount a).excess (Head s.graph a) = s.excess (Head s.graph a) + amount := by
  unfold PushFlow
  simp only
  rw [Function.update_same, Function.update_noteq (Ne.symm h)]

theorem PushFlow_excess_other (s : FlowState) (amount a : Int) (v : Nat)
    (h1 : v ≠ Tail s.graph a) (h2 : v ≠ Head s.graph a) :
    (s.PushFlow amount a).excess v = s.excess v := by
  unfold PushFlow
  simp only
  rw [Function.update_noteq h2, Function.update_noteq h1]

theorem PushFlow_excess_selfloop (s : FlowState) (amount a : Int)
    (h : Tail s.graph a = Head s.graph a) (v : Nat) :
    (s.PushFlow amount a).excess v = s.excess v := by
  unfold PushFlow
  simp only
  rcases eq_or_ne v (Head s.graph a) with hv | hv
  · subst hv
    rw [Function.update_same, ← h, Function.update_same]
    ring
  · rw [Function.update_noteq hv, Function.update_noteq (h ▸ hv)]

/-- Pushing a positive amount not exceeding the residual capacity along an
admissible arc preserves epsilon-optimality: the pushed arc keeps its reduced
cost, and the opposite arc, whose residual capacity grows, has the negated
(hence strictly positive) reduced cost. -/
theorem EpsOptimal_PushFlow (s : FlowState) (amount a : Int)
    (heps : 0 ≤ s.epsilon) (hopt : s.EpsOptimal)
    (hadm : s.IsAdmissible a = true) (hle : amount ≤ s.residual a) :
    (s.PushFlow amount a).EpsOptimal := by
  intro b hb hres
  rw [PushFlow_graph] at hb
  rw [PushFlow_ReducedCost, PushFlow_epsilon]
  rcases eq_or_ne b a with rfl | hba
  · have h0 : 0 < s.residual b := by
      unfold IsAdmissible at hadm
      simp only [Bool.and_eq_true, decide_eq_true_eq] at hadm
      exact hadm.1
    exact hopt b hb h0
  rcases eq_or_ne b (Opposite a) with rfl | hbo
  · have hred : s.ReducedCost a < 0 := by
      unfold IsAdmissible at hadm
      simp only [Bool.and_eq_true, decide_eq_true_eq] at hadm
      exact hadm.2
    rw [ReducedCost_Opposite]
    omega
  · have := PushFlow_residual_other s amount a b hba hbo
    rw [this] at hres
    exact hopt b hb hres

theorem seed_le_foldl_max (x : Int) (xs : List Int) : x ≤ xs.foldl max x := by
  induction xs generalizing x with
  | nil => exact le_refl x
  | cons z zs ih => exact le_trans (le_max_left x z) (ih (max x z))

theorem le_foldl_max (x : Int) (xs : List Int) (y : Int) (hy : y ∈ x :: xs) :
    y ≤ xs.foldl max x := by
  induction xs generalizing x with
  | nil =>
    simp only [List.mem_singleton] at hy
    simp [hy]
  | cons z zs ih =>
    rcases List.mem_cons.1 hy with rfl | hy2
    · exact le_trans (le_max_left y z) (seed_le_foldl_max (max y z) zs)
    · rcases List.mem_cons.1 hy2 with rfl | hy3
      · exact le_trans (le_max_right x y) (seed_le_foldl_max (max x y) zs)
      · exact ih (max x z) (List.mem_cons.2 (Or.inr hy3))

theorem foldl_max_le (x : Int) (xs : List Int) (b : Int)
    (hx : x ≤ b) (hxs : ∀ y ∈ xs, y ≤ b) : xs.foldl max x ≤ b := by
  induction xs generalizing x with
  | nil => exact hx
  | cons z zs ih =>
    exact ih (max x z) (max_le hx (hxs z (List.mem_cons_self _ _)))
      (fun y hy => hxs y (List.mem_cons_of_mem _ hy))

/-- Arcs incident to `node` with `node` as their tail (the arcs `Relabel` and
`Discharge` scan, i.e. the outgoing arcs of the residual graph). -/
def outgoingArcs (s : FlowState) (node : Nat) : List Int :=
  (allArcs s.graph).filter fun a => Tail s.graph a == node

/-- Outgoing arcs of `node` with strictly positive residual capacity. -/
def residualOutArcs (s : FlowState) (node : Nat) : List Int :=
  (outgoingArcs s node).filter fun a => decide (0 < s.residual a)

/-- Modelled from the spec: the new potential computed by `Relabel` is the
largest value making some outgoing residual arc admissible at `epsilon`:
`max over outgoing residual arcs a of (potential[Head(a)] - scaled_unit_cost[a]
- epsilon)`.  When the node has no outgoing residual arc (a dead node, which
the spec treats separately) the potential is left unchanged. -/
def newPotential (s : FlowState) (node : Nat) : Int :=
  match (residualOutArcs s node).map
      (fun a => s.potential (Head s.graph a) - s.scaledUnitCost a - s.epsilon) with
  | [] => s.potential node
  | x :: xs => xs.foldl max x

/-- Modelled from the spec: `Relabel(node)` decreases the node's potential to
`newPotential`. -/
def Relabel (s : FlowState) (node : Nat) : FlowState :=
  { s with potential := Function.update s.potential node (s.newPotential node) }

/-- Modelled from the spec: the precondition of `Relabel`, checked by
`CheckRelabelPrecondition`: the node is active or has zero excess, and it has
no admissible outgoing arc.  We additionally require an outgoing residual arc,
which is the case the max formula covers (the spec treats dead nodes apart). -/
def CheckRelabelPrecondition (s : FlowState) (node : Nat) : Prop :=
  0 ≤ s.excess node ∧
    (∀ a ∈ outgoingArcs s node, s.IsAdmissible a = false) ∧
    residualOutArcs s node ≠ []

theorem Relabel_graph (s : FlowState) (node : Nat) : (s.Relabel node).graph = s.graph := rfl

theorem Relabel_residual (s : FlowState) (node : Nat) :
    (s.Relabel node).residual = s.residual := rfl

theorem Relabel_epsilon (s : FlowState) (node : Nat) :
    (s.Relabel node).epsilon = s.epsilon := rfl

theorem Relabel_scaledUnitCost (s : FlowState) (node : Nat) :
    (s.Relabel node).scaledUnitCost = s.scaledUnitCost := rfl

theorem Relabel_potential (s : FlowState) (node : Nat) :
    (s.Relabel node).potential = Function.update s.potential node (s.newPotential node) := rfl

theorem mem_residualOutArcs (s : FlowState) (node : Nat) (a : Int) :
    a ∈ residualOutArcs s node ↔
      a ∈ allArcs s.graph ∧ Tail s.graph a = node ∧ 0 < s.residual a := by
  unfold residualOutArcs outgoingArcs
  simp only [List.mem_filter, decide_eq_true_eq, beq_iff_eq]
  tauto

/-- Every outgoing residual arc's relabel target is at most the new potential. -/
theorem relabel_target_le_newPotential (s : FlowState) (node : Nat) (a : Int)
    (ha : a ∈ residualOutArcs s node) :
    s.potential (Head s.graph a) - s.scaledUnitCost a - s.epsilon ≤ s.newPotential node := by
  have hmem : s.potential (Head s.graph a) - s.scaledUnitCost a - s.epsilon ∈
      (residualOutArcs s node).map
        (fun a => s.potential (Head s.graph a) - s.scaledUnitCost a - s.epsilon) :=
    List.mem_map.2 ⟨a, ha, rfl⟩
  unfold newPotential
  rcases hml : (residualOutArcs s node).map
      (fun a => s.potential (Head s.graph a) - s.scaledUnitCost a - s.epsilon)
    with _ | ⟨x, xs⟩
  · rw [hml] at hmem
    simp at hmem
  · rw [hml] at hmem
    exact le_foldl_max x xs _ hmem

/-- Under the relabel precondition the new potential is at most the old
potential minus epsilon: relabelling only decreases potentials. -/
theorem newPotential_le (s : FlowState) (node : Nat)
    (hpre : s.CheckRelabelPrecondition node) :
    s.newPotential node ≤ s.potential node - s.epsilon := by
  obtain ⟨-, hnadm, hne⟩ := hpre
  have key : ∀ y ∈ (residualOutArcs s node).map
      (fun a => s.potential (Head s.graph a) - s.scaledUnitCost a - s.epsilon),
      y ≤ s.potential node - s.epsilon := by
    intro y hy
    obtain ⟨a, ha, rfl⟩ := List.mem_map.1 hy
    obtain ⟨hmem, htail, hres⟩ := (mem_residualOutArcs s node a).1 ha
    have hna : s.IsAdmissible a = false := by
      apply hnadm
      unfold outgoingArcs
      rw [List.mem_filter]
      exact ⟨hmem, by simp [htail]⟩
    have hred : 0 ≤ s.ReducedCost a := by
      unfold IsAdmissible at hna
      simp only [Bool.and_eq_false_iff, decide_eq_false_iff_not, not_lt] at hna
      rcases hna with h | h
      · omega
      · exact h
    unfold ReducedCost at hred
    rw [htail] at hred
    omega
  unfold newPotential
  match hml : (residualOutArcs s node).map
      (fun a => s.potential (Head s.graph a) - s.scaledUnitCost a - s.epsilon) with
  | [] =>
    exact absurd (List.map_eq_nil_iff.1 hml) hne
  | x :: xs =>
    rw [hml] at key
    exact foldl_max_le x xs _ (key x (List.mem_cons_self _ _))
      (fun y hy => key y (List.mem_cons_of_mem _ hy))

/-- Relabelling a node that satisfies the relabel precondition preserves
epsilon-optimality: outgoing residual arcs get reduced cost at least
`-epsilon` by the max formula, and incoming arcs only improve because the
potential decreases. -/
theorem EpsOptimal_Relabel (s : FlowState) (node : Nat)
    (heps : 0 ≤ s.epsilon) (hopt : s.EpsOptimal)
    (hpre : s.CheckRelabelPrecondition node) :
    (s.Relabel node).EpsOptimal := by
  intro b hb hres
  rw [Relabel_graph] at hb
  rw [Relabel_residual] at hres
  rw [Relabel_epsilon]
  have hple : s.newPotential node ≤ s.potential node - s.epsilon := newPotential_le s node hpre
  show -s.epsilon ≤ (s.Relabel node).ReducedCost b
  unfold ReducedCost
  rw [Relabel_scaledUnitCost, Relabel_graph, Relabel_potential]
  rcases eq_or_ne (Tail s.graph b) node with htail | htail
  · rcases eq_or_ne (Head s.graph b) node with hhead | hhead
    · -- self loop at the relabelled node: the reduced cost is unchanged
      rw [htail, hhead, Function.update_same]
      have := hopt b hb hres
      unfold ReducedCost at this
      rw [htail, hhead] at this
      omega
    · -- outgoing arc: the max formula keeps it epsilon-optimal
      have hmem : b ∈ residualOutArcs s node :=
        (mem_residualOutArcs s node b).2 ⟨hb, htail, hres⟩
      have := relabel_target_le_newPotential s node b hmem
      rw [htail, Function.update_same, Function.update_noteq hhead]
      omega
  · rcases eq_or_ne (Head s.graph b) node with hhead | hhead
    · -- incoming arc: the potential of the head only decreases
      have := hopt b hb hres
      unfold ReducedCost at this
      rw [hhead, Function.update_same, Function.update_noteq htail]
      rw [hhead] at this
      omega
    · -- untouched arc
      rw [Function.update_noteq htail, Function.update_noteq hhead]
      exact hopt b hb hres

/-- Modelled from the spec: one step of `SaturateAdmissibleArcs`: push the
full residual capacity of the arc when it is admissible (i.e. when its
reduced cost is strictly negative and residual capacity positive). -/
def SaturateOne (s : FlowState) (a : Int) : FlowState :=
  if s.IsAdmissible a then s.PushFlow (s.residual a) a else s

/-- Modelled from the spec: `SaturateAdmissibleArcs` pushes the full residual
capacity of every admissible arc. -/
def SaturateAdmissibleArcs (s : FlowState) : FlowState :=
  (allArcs s.graph).foldl SaturateOne s

theorem SaturateOne_graph (s : FlowState) (a : Int) : (s.SaturateOne a).graph = s.graph := by
  unfold SaturateOne
  split <;> rfl

theorem SaturateOne_epsilon (s : FlowState) (a : Int) :
    (s.SaturateOne a).epsilon = s.epsilon := by
  unfold SaturateOne
  split <;> rfl

theorem SaturateOne_ReducedCost (s : FlowState) (a b : Int) :
    (s.SaturateOne a).ReducedCost b = s.ReducedCost b := by
  unfold SaturateOne
  split <;> rfl

theorem IsAdmissible_SaturateOne_self (s : FlowState) (b : Int) :
    (s.SaturateOne b).IsAdmissible b = false := by
  unfold SaturateOne
  split
  case isTrue h =>
    unfold IsAdmissible
    rw [PushFlow_residual_self]
    simp
  case isFalse h =>
    simpa using h

theorem IsAdmissible_SaturateOne_mono (s : FlowState) (a b : Int)
    (ha : s.IsAdmissible a = false) : (s.SaturateOne b).IsAdmissible a = false := by
  rcases eq_or_ne a b with rfl | hab
  · exact IsAdmissible_SaturateOne_self s a
  unfold SaturateOne
  split
  case isFalse h => exact ha
  case isTrue h =>
    rcases eq_or_ne a (Opposite b) with rfl | hao
    · have hred : s.ReducedCost b < 0 := by
        unfold IsAdmissible at h
        simp only [Bool.and_eq_true, decide_eq_true_eq] at h
        exact h.2
      unfold IsAdmissible
      rw [PushFlow_ReducedCost, ReducedCost_Opposite]
      simp only [Bool.and_eq_false_iff, decide_eq_false_iff_not, not_lt]
      right
      omega
    · unfold IsAdmissible
      rw [PushFlow_ReducedCost, PushFlow_residual_other s _ b a hab hao]
      exact ha

theorem foldl_SaturateOne_graph (l : List Int) (s : FlowState) :
    (l.foldl SaturateOne s).graph = s.graph := by
  induction l generalizing s with
  | nil => rfl
  | cons b t ih => rw [List.foldl_cons, ih, SaturateOne_graph]

theorem foldl_SaturateOne_epsilon (l : List Int) (s : FlowState) :
    (l.foldl SaturateOne s).epsilon = s.epsilon := by
  induction l generalizing s with
  | nil => rfl
  | cons b t ih => rw [List.foldl_cons, ih, SaturateOne_epsilon]

theorem IsAdmissible_foldl_SaturateOne_mono (l : List Int) (s : FlowState) (a : Int)
    (ha : s.IsAdmissible a = false) : (l.foldl SaturateOne s).IsAdmissible a = false := by
  induction l generalizing s with
  | nil => exact ha
  | cons b t ih => exact ih (s.SaturateOne b) (IsAdmissible_SaturateOne_mono s a b ha)

theorem IsAdmissible_foldl_SaturateOne_of_mem (l : List Int) (s : FlowState) (a : Int)
    (ha : a ∈ l) : (l.foldl SaturateOne s).IsAdmissible a = false := by
  induction l generalizing s with
  | nil => cases ha
  | cons b t ih =>
    rcases List.mem_cons.1 ha with rfl | ha2
    · exact IsAdmissible_foldl_SaturateOne_mono t (s.SaturateOne a) a
        (IsAdmissible_SaturateOne_self s a)
    · exact ih (s.SaturateOne b) ha2

/-- After `SaturateAdmissibleArcs` no arc is admissible, so every residual arc
has nonnegative reduced cost: the state is epsilon-optimal for any
nonnegative epsilon. -/
theorem EpsOptimal_SaturateAdmissibleArcs (s : FlowState) (heps : 0 ≤ s.epsilon) :
    s.SaturateAdmissibleArcs.EpsOptimal := by
  intro b hb hres
  unfold SaturateAdmissibleArcs at hb hres ⊢
  rw [foldl_SaturateOne_graph] at hb
  have hna := IsAdmissible_foldl_SaturateOne_of_mem (allArcs s.graph) s b hb
  unfold IsAdmissible at hna
  simp only [Bool.and_eq_false_iff, decide_eq_false_iff_not, not_lt] at hna
  rw [foldl_SaturateOne_epsilon]
  rcases hna with h | h
  · omega
  · omega

/-- `CheckResult` checks exactly epsilon-optimality: given that residual
capacities are nonnegative, `residual == 0 || reduced >= -eps` for every arc
is equivalent to `residual > 0 -> reduced >= -eps` for every arc. -/
theorem CheckResult_iff_EpsOptimal (s : FlowState)
    (hres : ∀ a ∈ allArcs s.graph, 0 ≤ s.residual a) :
    s.CheckResult = true ↔ s.EpsOptimal := by
  unfold CheckResult EpsOptimal
  rw [List.all_eq_true]
  constructor
  · intro h a ha hpos
    have := h a ha
    simp only [Bool.or_eq_true, beq_iff_eq, decide_eq_true_eq] at this
    rcases this with h0 | h1
    · omega
    · exact h1
  · intro h a ha
    simp only [Bool.or_eq_true, beq_iff_eq, decide_eq_true_eq]
    rcases lt_or_eq_of_le (hres a ha) with hpos | hzero
    · exact Or.inr (h a ha hpos)
    · exact Or.inl hzero.symm

/-- Modelled from the spec: one step of the inner loop of `Refine`
(`Discharge`): either a push of a positive amount, bounded by the residual
capacity, along an admissible arc, or a relabel of a node satisfying the
relabel precondition. -/
def DischargeStep (s sNext : FlowState) : Prop :=
  (∃ a amount, s.IsAdmissible a = true ∧ 0 < amount ∧ amount ≤ s.residual a ∧
      sNext = s.PushFlow amount a) ∨
  (∃ v, s.CheckRelabelPrecondition v ∧ sNext = s.Relabel v)

theorem DischargeStep_epsilon (s sNext : FlowState) (h : DischargeStep s sNext) :
    sNext.epsilon = s.epsilon := by
  rcases h with ⟨a, amount, -, -, -, rfl⟩ | ⟨v, -, rfl⟩
  · exact PushFlow_epsilon s amount a
  · exact Relabel_epsilon s v

theorem EpsOptimal_DischargeStep (s sNext : FlowState) (heps : 0 ≤ s.epsilon)
    (hopt : s.EpsOptimal) (h : DischargeStep s sNext) : sNext.EpsOptimal := by
  rcases h with ⟨a, amount, hadm, hpos, hle, rfl⟩ | ⟨v, hpre, rfl⟩
  · exact EpsOptimal_PushFlow s amount a heps hopt hadm hle
  · exact EpsOptimal_Relabel s v heps hopt hpre

theorem ReflTransGen_DischargeStep_epsilon (s sNext : FlowState)
    (h : Relation.ReflTransGen DischargeStep s sNext) : sNext.epsilon = s.epsilon := by
  induction h with
  | refl => rfl
  | tail hsteps hstep ih => rw [DischargeStep_epsilon _ _ hstep, ih]

theorem EpsOptimal_ReflTransGen_DischargeStep (s sNext : FlowState) (heps : 0 ≤ s.epsilon)
    (hopt : s.EpsOptimal) (h : Relation.ReflTransGen DischargeStep s sNext) :
    sNext.EpsOptimal := by
  induction h with
  | refl => exact hopt
  | tail hsteps hstep ih =>
    apply EpsOptimal_DischargeStep _ _ _ ih hstep
    rw [ReflTransGen_DischargeStep_epsilon _ _ hsteps]
    exact heps

end FlowState

/-- Modelled from the spec: the cost-scaling factor `(n + 1)` used by
`ScaleCosts`. -/
def CostScalingFactor (G : FlowGraph) : Int := (G.numNodes : Int) + 1

/-- Modelled from the spec: the initial epsilon after cost scaling: the
maximum absolute value of the scaled unit costs. -/
def initialEpsilon (G : FlowGraph) (cost : Nat -> Int) : Int :=
  ((List.range G.numArcs).map (fun i : Nat => |CostScalingFactor G * cost i|)).foldl max 0

/-- Modelled from the spec: the solver state right after `ScaleCosts`: all
potentials are zero, every forward arc cost is multiplied by `(n + 1)`, and
epsilon is the maximum absolute value of the scaled costs; excesses and
residual capacities are whatever the setup produced. -/
def ScaledState (G : FlowGraph) (cost : Nat -> Int) (excess : Nat -> Int)
    (residual : Int -> Int) : FlowState :=
  { graph := G, excess := excess, potential := fun _ => 0, residual := residual,
    forwardCost := fun i => CostScalingFactor G * cost i,
    epsilon := initialEpsilon G cost }

namespace FlowState

open FlowGraph

/-- Right after initial cost scaling the state is epsilon-optimal with
`epsilon = max |scaled cost|`: all potentials are zero so every reduced cost
is a scaled cost, which is at least `-epsilon` in absolute value. -/
theorem EpsOptimal_ScaledState (G : FlowGraph) (cost excess : Nat -> Int)
    (residual : Int -> Int) : (ScaledState G cost excess residual).EpsOptimal := by
  intro b hb hres
  have hvalid := (mem_allArcs G b).1 hb
  unfold IsArcValid at hvalid
  have hidx : forwardOf b < G.numArcs := by
    unfold forwardOf
    split <;> omega
  have hmem : |CostScalingFactor G * cost (forwardOf b)| ∈
      (List.range G.numArcs).map (fun i : Nat => |CostScalingFactor G * cost i|) :=
    List.mem_map.2 ⟨forwardOf b, List.mem_range.2 hidx, rfl⟩
  have habs : |CostScalingFactor G * cost (forwardOf b)| ≤ initialEpsilon G cost :=
    le_foldl_max 0 _ _ (List.mem_cons_of_mem 0 hmem)
  have habs2 := abs_le.1 (le_refl |CostScalingFactor G * cost (forwardOf b)|)
  unfold ReducedCost ScaledState
  simp only
  unfold scaledUnitCost
  simp only
  show -(initialEpsilon G cost) ≤ (if 0 ≤ b then CostScalingFactor G * cost b.toNat
    else -(CostScalingFactor G * cost (-b - 1).toNat)) + 0 - 0
  rcases le_or_lt 0 b with h | h
  · have hf : forwardOf b = b.toNat := by
      unfold forwardOf
      rw [if_pos h]
    rw [hf] at habs habs2
    rw [if_pos h]
    omega
  · have h2 : ¬ (0 ≤ b) := by omega
    have hf : forwardOf b = (-b - 1).toNat := by
      unfold forwardOf
      rw [if_neg h2]
    rw [hf] at habs habs2
    rw [if_neg h2]
    omega

end FlowState

open FlowGraph FlowState

/-- A two-node graph with the single forward arc `0 -> 1`, used to instantiate
the theorems below on concrete data. -/
def sampleGraph : FlowGraph := { numNodes := 2, arcs := [(0, 1)] }

/-- A concrete state on `sampleGraph`: arc `0` has residual capacity 1 and
scaled cost `-1`, all potentials are zero and `epsilon = 1`; arc `0` is
admissible and the state is epsilon-optimal. -/
def sampleState : FlowState :=
  { graph := sampleGraph, excess := fun _ => 0, potential := fun _ => 0,
    residual := fun a => if a = 0 then 1 else 0,
    forwardCost := fun _ => -1, epsilon := 1 }

/-- Claim C1: epsilon-optimality (every arc with positive residual capacity
has reduced cost at least `-epsilon`) is the property `CheckResult` verifies,
it holds right after initial cost scaling, it is established by
`SaturateAdmissibleArcs` at the start of `Refine`, and it is preserved by
every sequence of discharge steps (admissible pushes and relabels), hence it
is an invariant between `Refine` calls. -/
theorem epsilon_optimality_invariant :
    (∀ s : FlowState, (∀ a ∈ allArcs s.graph, 0 ≤ s.residual a) →
        (s.CheckResult = true ↔ s.EpsOptimal)) ∧
    (∀ (G : FlowGraph) (cost excess : Nat → Int) (residual : Int → Int),
        (ScaledState G cost excess residual).EpsOptimal) ∧
    (∀ s : FlowState, 0 ≤ s.epsilon → s.SaturateAdmissibleArcs.EpsOptimal) ∧
    (∀ s sNext : FlowState, 0 ≤ s.epsilon → s.EpsOptimal →
        Relation.ReflTransGen DischargeStep s sNext → sNext.EpsOptimal) :=
  ⟨CheckResult_iff_EpsOptimal, EpsOptimal_ScaledState,
    EpsOptimal_SaturateAdmissibleArcs, EpsOptimal_ReflTransGen_DischargeStep⟩

/-- Witness for C1 on `sampleState`: all hypotheses are discharged on concrete
data, including a one-step discharge sequence pushing one unit along the
admissible arc `0`. -/
theorem epsilon_optimality_invariant_witness :
    (sampleState.CheckResult = true ↔ sampleState.EpsOptimal) ∧
      (ScaledState sampleGraph (fun _ => 1) (fun _ => 0) (fun _ => 0)).EpsOptimal ∧
      sampleState.SaturateAdmissibleArcs.EpsOptimal ∧
      (sampleState.PushFlow 1 0).EpsOptimal :=
  ⟨epsilon_optimality_invariant.1 sampleState (by decide),
    epsilon_optimality_invariant.2.1 sampleGraph (fun _ => 1) (fun _ => 0) (fun _ => 0),
    epsilon_optimality_invariant.2.2.1 sampleState (by decide),
    epsilon_optimality_invariant.2.2.2 sampleState (sampleState.PushFlow 1 0) (by decide)
      (by decide)
      (Relation.ReflTransGen.single
        (Or.inl ⟨0, 1, by decide, by decide, by decide, rfl⟩))⟩

/-- Claim C2: `Flow(a)` is `residual_arc_capacity_[Opposite(a)]` for every
direct arc and `-residual_arc_capacity_[a]` for every reverse arc; the state
carries no flow array, flows are read back from residual capacities only. -/
theorem Flow_residual_readback :
    ∀ (s : FlowState) (a : Int),
      (IsArcDirect a = true → s.Flow a = s.residual (Opposite a)) ∧
      (IsArcDirect a = false → s.Flow a = -(s.residual a)) := by
  intro s a
  constructor
  · intro h
    unfold IsArcDirect at h
    rw [decide_eq_true_eq] at h
    unfold FlowState.Flow
    rw [if_pos h]
  · intro h
    unfold IsArcDirect at h
    have h2 : ¬ (0 ≤ a) := of_decide_eq_false h
    unfold FlowState.Flow
    rw [if_neg h2]

/-- Witness for C2 at the direct arc `0` and the reverse arc `-1` of
`sampleState`. -/
theorem Flow_residual_readback_witness :
    (IsArcDirect 0 = true ∧ sampleState.Flow 0 = sampleState.residual (Opposite 0)) ∧
      (IsArcDirect (-1) = false ∧ sampleState.Flow (-1) = -(sampleState.residual (-1))) :=
  ⟨⟨by decide, (Flow_residual_readback sampleState 0).1 (by decide)⟩,
    ⟨by decide, (Flow_residual_readback sampleState (-1)).2 (by decide)⟩⟩

/-- Claim C3: `IsAdmissible(a)` holds iff `residual_capacity[a] > 0` and
`ReducedCost(a) < 0`, where `ReducedCost(a) = scaled_unit_cost[a] +
potential[Tail(a)] - potential[Head(a)]`, and `FastIsAdmissible(a, p)` at the
tail's current potential agrees with `IsAdmissible(a)`. -/
theorem IsAdmissible_characterization :
    ∀ (s : FlowState) (a : Int),
      (s.IsAdmissible a = true ↔ 0 < s.residual a ∧ s.ReducedCost a < 0) ∧
      s.ReducedCost a = s.scaledUnitCost a + s.potential (Tail s.graph a)
        - s.potential (Head s.graph a) ∧
      s.FastIsAdmissible a (s.potential (Tail s.graph a)) = s.IsAdmissible a := by
  intro s a
  refine ⟨?_, rfl, rfl⟩
  unfold IsAdmissible
  simp only [Bool.and_eq_true, decide_eq_true_eq]

/-- Witness for C3: the admissibility equivalence applied on `sampleState`
at arc `0`. -/
theorem IsAdmissible_characterization_witness :
    sampleState.IsAdmissible 0 = true :=
  (IsAdmissible_characterization sampleState 0).1.2 ⟨by decide, by decide⟩

/-- A one-node graph whose single arc `0` is a self loop `0 -> 0`. -/
def selfLoopGraph : FlowGraph := { numNodes := 1, arcs := [(0, 0)] }

/-- A state on `selfLoopGraph` with excess 5 at node 0 and residual
capacity 3 on the self-loop arc `0`. -/
def selfLoopState : FlowState :=
  { graph := selfLoopGraph, excess := fun _ => 5, potential := fun _ => 0,
    residual := fun a => if a = 0 then 3 else 0,
    forwardCost := fun _ => 0, epsilon := 1 }

/-- Counterexample to C4 as stated: on the self-loop arc `0` of
`selfLoopState` the preconditions `0 < 1` and `1 ≤ residual_capacity[0]`
hold, yet `PushFlow(1, 0)` does not decrease `excess[Tail(0)]` by 1: the two
excess updates hit the same node and cancel. -/
theorem PushFlow_claim_counterexample :
    Tail selfLoopState.graph 0 = 0 ∧ Head selfLoopState.graph 0 = 0 ∧
      0 < (1 : Int) ∧ (1 : Int) ≤ selfLoopState.residual 0 ∧
      (selfLoopState.PushFlow 1 0).excess 0 = 5 ∧ selfLoopState.excess 0 = 5 ∧
      ¬ ((selfLoopState.PushFlow 1 0).excess (Tail selfLoopState.graph 0) =
          selfLoopState.excess (Tail selfLoopState.graph 0) - 1) := by
  decide

/-- Claim C4 (amended): under the preconditions `0 < amount ≤
residual_capacity[a]`, `PushFlow(amount, a)` decreases `residual_capacity[a]`
by `amount`, increases `residual_capacity[Opposite(a)]` by `amount`, and,
provided `Tail(a) ≠ Head(a)`, decreases `excess[Tail(a)]` and increases
`excess[Head(a)]` by `amount` (when `Tail(a) = Head(a)` the two excess
updates cancel and every excess is unchanged); every other residual
capacity, every other node excess and all node potentials are unchanged, and
`residual_capacity[a] + residual_capacity[Opposite(a)]` is preserved. -/
theorem PushFlow_effects :
    ∀ (s : FlowState) (amount a : Int), 0 < amount → amount ≤ s.residual a →
      (s.PushFlow amount a).residual a = s.residual a - amount ∧
      (s.PushFlow amount a).residual (Opposite a) = s.residual (Opposite a) + amount ∧
      (Tail s.graph a ≠ Head s.graph a →
        (s.PushFlow amount a).excess (Tail s.graph a) = s.excess (Tail s.graph a) - amount ∧
        (s.PushFlow amount a).excess (Head s.graph a) = s.excess (Head s.graph a) + amount) ∧
      (Tail s.graph a = Head s.graph a →
        ∀ v, (s.PushFlow amount a).excess v = s.excess v) ∧
      (∀ b : Int, b ≠ a → b ≠ Opposite a →
        (s.PushFlow amount a).residual b = s.residual b) ∧
      (∀ v : Nat, v ≠ Tail s.graph a → v ≠ Head s.graph a →
        (s.PushFlow amount a).excess v = s.excess v) ∧
      (s.PushFlow amount a).potential = s.potential ∧
      (s.PushFlow amount a).residual a + (s.PushFlow amount a).residual (Opposite a) =
        s.residual a + s.residual (Opposite a) := by
  intro s amount a hpos hle
  refine ⟨PushFlow_residual_self s amount a, PushFlow_residual_opposite s amount a,
    fun h => ⟨PushFlow_excess_tail s amount a h, PushFlow_excess_head s amount a h⟩,
    fun h v => PushFlow_excess_selfloop s amount a h v,
    fun b hb hbo => PushFlow_residual_other s amount a b hb hbo,
    fun v h1 h2 => PushFlow_excess_other s amount a v h1 h2,
    PushFlow_potential s amount a, ?_⟩
  rw [PushFlow_residual_self, PushFlow_residual_opposite]
  ring

/-- Witness for C4 (amended), pushing one unit along arc `0` of
`sampleState`, whose tail 0 and head 1 differ. -/
theorem PushFlow_effects_witness :
    (sampleState.PushFlow 1 0).residual 0 = sampleState.residual 0 - 1 ∧
      (sampleState.PushFlow 1 0).residual (Opposite 0) =
        sampleState.residual (Opposite 0) + 1 ∧
      (sampleState.PushFlow 1 0).excess (Tail sampleState.graph 0) =
        sampleState.excess (Tail sampleState.graph 0) - 1 :=
  ⟨(PushFlow_effects sampleState 1 0 (by decide) (by decide)).1,
    (PushFlow_effects sampleState 1 0 (by decide) (by decide)).2.1,
    ((PushFlow_effects sampleState 1 0 (by decide) (by decide)).2.2.1 (by decide)).1⟩

/-- Modelled from the spec: `alpha_`, the factor by which epsilon is divided
at each iteration of the outer loop (default 5). -/
def alphaFactor : Int := 5

/-- Modelled from the spec: one iteration of the outer loop of `Optimize`
divides epsilon by alpha, flooring at 1. -/
def nextEpsilon (e : Int) : Int := max (e / alphaFactor) 1

/-- Fuel-indexed iteration of the outer loop `while epsilon > 1`, returning
the exit value of epsilon.  One unit of fuel per iteration; epsilon strictly
decreases while it exceeds 1, so `e.toNat` fuel always suffices. -/
def finalEpsAux : Nat → Int → Int
  | 0, e => e
  | n + 1, e => if 1 < e then finalEpsAux n (nextEpsilon e) else e

/-- Modelled from the spec: the value of epsilon when the outer loop
`while epsilon > 1 do epsilon := max (epsilon / alpha) 1; Refine()` exits,
starting from `e`. -/
def finalEpsilon (e : Int) : Int := finalEpsAux e.toNat e

/-- Fuel-indexed trace of the successive epsilon values of the outer loop. -/
def epsTraceAux : Nat → Int → List Int
  | 0, _ => []
  | n + 1, e => if 1 < e then nextEpsilon e :: epsTraceAux n (nextEpsilon e) else []

/-- Modelled from the spec: the successive values taken by epsilon across the
outer loop, starting from `e`. -/
def epsilonTrace (e : Int) : List Int := epsTraceAux e.toNat e

/-- Modelled from the spec: the total flow cost reported after `Optimize`:
the sum over forward arcs of the flow times the original unscaled unit cost. -/
def TotalFlowCost (s : FlowState) (origCost : Nat → Int) : Int :=
  ((List.range s.graph.numArcs).map (fun i : Nat => s.Flow (i : Int) * origCost i)).sum

theorem nextEpsilon_lt (e : Int) (h : 1 < e) : nextEpsilon e < e := by
  unfold nextEpsilon alphaFactor
  rcases max_cases (e / 5) 1 with ⟨h1, h2⟩ | ⟨h1, h2⟩ <;> omega

theorem nextEpsilon_pos (e : Int) : 1 ≤ nextEpsilon e := le_max_right _ _

theorem finalEpsAux_one (n : Nat) : finalEpsAux n 1 = 1 := by
  cases n <;> simp [finalEpsAux]

theorem finalEpsAux_eq_one (n : Nat) :
    ∀ e : Int, 1 < e → e ≤ (n : Int) → finalEpsAux n e = 1 := by
  induction n with
  | zero =>
    intro e h1 h2
    omega
  | succ n ih =>
    intro e h1 h2
    unfold finalEpsAux
    rw [if_pos h1]
    have hlt := nextEpsilon_lt e h1
    have hpos := nextEpsilon_pos e
    rcases eq_or_lt_of_le hpos with heq | hgt
    · rw [← heq]
      exact finalEpsAux_one n
    · exact ih (nextEpsilon e) hgt (by omega)

theorem finalEpsilon_eq_one (e : Int) (h : 1 < e) : finalEpsilon e = 1 := by
  unfold finalEpsilon
  exact finalEpsAux_eq_one e.toNat e h (by omega)

theorem epsTraceAux_antitone (n : Nat) :
    ∀ e : Int, List.Chain' (fun x y => y ≤ x) (e :: epsTraceAux n e) := by
  induction n with
  | zero =>
    intro e
    simp [epsTraceAux]
  | succ n ih =>
    intro e
    unfold epsTraceAux
    split
    case isTrue h =>
      exact List.chain'_cons.2 ⟨le_of_lt (nextEpsilon_lt e h), ih (nextEpsilon e)⟩
    case isFalse h =>
      simp

/-- Unscaling: the sum of flows weighted by the scaled costs is `(n + 1)`
times the sum weighted by the original costs. -/
theorem scaled_flow_cost_sum (s : FlowState) (cost : Nat → Int) :
    ((List.range s.graph.numArcs).map
        (fun i : Nat => s.Flow (i : Int) * (CostScalingFactor s.graph * cost i))).sum =
      CostScalingFactor s.graph * TotalFlowCost s cost := by
  unfold TotalFlowCost
  rw [show (fun i : Nat => s.Flow (i : Int) * (CostScalingFactor s.graph * cost i)) =
      (fun i : Nat => CostScalingFactor s.graph * (s.Flow (i : Int) * cost i)) from
    funext (fun i => by ring)]
  exact List.sum_map_mul_left _ _ _

/-- Claim C5 (amended): cost scaling multiplies every unit cost by `(n + 1)`
and sets epsilon to the maximum absolute scaled cost; each outer-loop
iteration replaces epsilon by `max (epsilon / alpha) 1` so the successive
epsilon values are monotonically nonincreasing; whenever the initial epsilon
exceeds 1 the loop exits with epsilon = 1 (when every scaled cost is zero
the loop body never runs and epsilon stays 0); and the reported total flow
cost is the sum over forward arcs of the flow times the original unscaled
unit cost, the scaled-cost sum being exactly `(n + 1)` times it. -/
theorem optimize_scaling_and_loop :
    (∀ (G : FlowGraph) (cost excess : Nat → Int) (residual : Int → Int) (i : Nat),
        (ScaledState G cost excess residual).forwardCost i = ((G.numNodes : Int) + 1) * cost i ∧
        (ScaledState G cost excess residual).epsilon = initialEpsilon G cost) ∧
    (∀ e : Int, List.Chain' (fun x y => y ≤ x) (e :: epsilonTrace e)) ∧
    (∀ e : Int, 1 < e → finalEpsilon e = 1) ∧
    (∀ (s : FlowState) (cost : Nat → Int),
        TotalFlowCost s cost =
          ((List.range s.graph.numArcs).map (fun i : Nat => s.Flow (i : Int) * cost i)).sum ∧
        ((List.range s.graph.numArcs).map
            (fun i : Nat => s.Flow (i : Int) * (CostScalingFactor s.graph * cost i))).sum =
          CostScalingFactor s.graph * TotalFlowCost s cost) :=
  ⟨fun _ _ _ _ _ => ⟨rfl, rfl⟩,
    fun e => epsTraceAux_antitone e.toNat e,
    finalEpsilon_eq_one,
    fun s cost => ⟨rfl, scaled_flow_cost_sum s cost⟩⟩

/-- Witness for C5 (amended): the loop starting at epsilon 10 exits at 1. -/
theorem optimize_scaling_and_loop_witness :
    finalEpsilon 10 = 1 ∧ List.Chain' (fun x y => y ≤ x) ((10 : Int) :: epsilonTrace 10) :=
  ⟨optimize_scaling_and_loop.2.2.1 10 (by decide), optimize_scaling_and_loop.2.1 10⟩

/-- Counterexample to C5 as stated: on the two-node instance whose single arc
has unit cost 0, the initial epsilon after scaling is `max |scaled cost| = 0`,
the loop `while epsilon > 1` never runs, and epsilon on exit is 0, not 1. -/
theorem optimize_exit_epsilon_counterexample :
    initialEpsilon sampleGraph (fun _ => 0) = 0 ∧
      finalEpsilon (initialEpsilon sampleGraph (fun _ => 0)) ≠ 1 := by
  decide

/-- Modelled from the spec: the data `Solve` consults before anything else:
the per-node supplies of the instance. -/
structure MCFProblem where
  supplies : List Int

/-- Modelled from the spec: `CheckInputConsistency` checks whether the sum of
the supplies for all nodes is equal to zero (per its header comment; the body
is not in the sources). -/
def CheckInputConsistency (p : MCFProblem) : Bool := p.supplies.sum == 0

/-- Modelled from the spec: `Solve` first runs the input-consistency check
and, when the supplies do not sum to zero, sets status `UNBALANCED` and
returns without producing a flow; the rest of the solve pipeline
(feasibility preflight and optimization), which only runs on balanced
instances, is abstracted as `rest`. -/
def SolveWith (rest : MCFProblem → Status × Option (List Int)) (p : MCFProblem) :
    Status × Option (List Int) :=
  if CheckInputConsistency p then rest p else (Status.UNBALANCED, none)

/-- Claim C6: for every instance whose supplies do not sum to zero, and
whatever the balanced part of the pipeline would do, `Solve` produces no flow
and the status is `UNBALANCED`. -/
theorem solve_unbalanced :
    ∀ (rest : MCFProblem → Status × Option (List Int)) (p : MCFProblem),
      p.supplies.sum ≠ 0 → SolveWith rest p = (Status.UNBALANCED, none) := by
  intro rest p h
  unfold SolveWith
  have hb : ¬ (CheckInputConsistency p = true) := by
    unfold CheckInputConsistency
    simp [h]
  rw [if_neg hb]

/-- Witness for C6: supplies `[1]` sum to 1, so `Solve` returns `UNBALANCED`
and no flow, whatever the balanced continuation is. -/
theorem solve_unbalanced_witness :
    SolveWith (fun _ => (Status.OPTIMAL, some [])) ⟨[1]⟩ = (Status.UNBALANCED, none) :=
  solve_unbalanced (fun _ => (Status.OPTIMAL, some [])) ⟨[1]⟩ (by decide)

/-- Modelled from the spec: the parts of the solver state that
`CheckFeasibility` and `MakeFeasible` interact with: working excesses
(`node_excess_`), initial excesses (`initial_node_excess_`), the feasible
supplies computed by the max-flow preflight (`feasible_node_excess_`) and the
`feasibility_checked_` flag. -/
structure FeasState where
  nodeExcess : Nat → Int
  initialNodeExcess : Nat → Int
  feasibleNodeExcess : Nat → Int
  feasibilityChecked : Bool

/-- Modelled from the spec: `MakeFeasible` returns false if
`CheckFeasibility` was not called before (the `feasibility_checked_` flag is
unset); otherwise it overwrites the node excesses and the initial excesses
with the feasible supplies computed by the preflight and returns true, so
that a subsequent `Solve` works on a feasible instance. -/
def MakeFeasible (s : FeasState) : FeasState × Bool :=
  if s.feasibilityChecked then
    ({ s with
        nodeExcess := s.feasibleNodeExcess
        initialNodeExcess := s.feasibleNodeExcess }, true)
  else (s, false)

/-- Claim C7: `MakeFeasible` returns false (and changes nothing) whenever
`CheckFeasibility` has not been called; after `CheckFeasibility` it returns
true and overwrites every node's initial excess (and working excess) with
the feasible supply computed by the preflight. -/
theorem makeFeasible_spec :
    ∀ s : FeasState,
      (s.feasibilityChecked = false → MakeFeasible s = (s, false)) ∧
      (s.feasibilityChecked = true →
        (MakeFeasible s).2 = true ∧
        (∀ v, (MakeFeasible s).1.initialNodeExcess v = s.feasibleNodeExcess v) ∧
        (∀ v, (MakeFeasible s).1.nodeExcess v = s.feasibleNodeExcess v)) := by
  intro s
  constructor
  · intro h
    simp [MakeFeasible, h]
  · intro h
    simp [MakeFeasible, h]

/-- A feasibility state whose preflight has run: flag set, feasible supplies
all 1, initial excesses all 2. -/
def feasSampleChecked : FeasState :=
  { nodeExcess := fun _ => 2, initialNodeExcess := fun _ => 2,
    feasibleNodeExcess := fun _ => 1, feasibilityChecked := true }

/-- The same state before the preflight has run. -/
def feasSampleUnchecked : FeasState :=
  { nodeExcess := fun _ => 2, initialNodeExcess := fun _ => 2,
    feasibleNodeExcess := fun _ => 1, feasibilityChecked := false }

/-- Witness for C7 on the two concrete feasibility states. -/
theorem makeFeasible_spec_witness :
    MakeFeasible feasSampleUnchecked = (feasSampleUnchecked, false) ∧
      (MakeFeasible feasSampleChecked).2 = true ∧
      (MakeFeasible feasSampleChecked).1.initialNodeExcess 0 =
        feasSampleChecked.feasibleNodeExcess 0 :=
  ⟨(makeFeasible_spec feasSampleUnchecked).1 rfl,
    ((makeFeasible_spec feasSampleChecked).2 rfl).1,
    ((makeFeasible_spec feasSampleChecked).2 rfl).2.1 0⟩

/-- The bound state of the pair of integer expressions `left_`, `right_` of
`RangeLessOrEqual` (range_cst.cc): each expression exposes its current
`Min()` and `Max()`. -/
structure RangeState where
  leftMin : Int
  leftMax : Int
  rightMin : Int
  rightMax : Int
  deriving DecidableEq, Repr

/-- Modelled from the spec: `IntExpr::SetMax(v)` on the left expression (its
implementation lies outside the sources): it fails when `v` is below the
current minimum and otherwise lowers the maximum to `min(Max(), v)`. -/
def leftSetMax (s : RangeState) (v : Int) : Option RangeState :=
  if v < s.leftMin then none else some { s with leftMax := min s.leftMax v }

/-- Modelled from the spec: `IntExpr::SetMin(v)` on the right expression (its
implementation lies outside the sources): it fails when `v` is above the
current maximum and otherwise raises the minimum to `max(Min(), v)`. -/
def rightSetMin (s : RangeState) (v : Int) : Option RangeState :=
  if s.rightMax < v then none else some { s with rightMin := max s.rightMin v }

/-- `RangeLessOrEqual::InitialPropagate` from range_cst.cc:
`left_->SetMax(right_->Max()); right_->SetMin(left_->Min());
if (left_->Max() <= right_->Min()) demon_->inhibit(solver());`.
The returned Boolean records whether the demon was inhibited; `none` models a
propagation failure. -/
def InitialPropagate (s : RangeState) : Option (RangeState × Bool) :=
  match leftSetMax s s.rightMax with
  | none => none
  | some s1 =>
    match rightSetMin s1 s1.leftMin with
    | none => none
    | some s2 => some (s2, decide (s2.leftMax ≤ s2.rightMin))

/-- Claim C8: after the two bound tightenings, `InitialPropagate` inhibits
its demon exactly when `left.Max() ≤ right.Min()`, and under that condition
every value remaining in the left range is at most every value remaining in
the right range (so the constraint is permanently satisfied, and remains so
under any further domain shrinking, since later domains are subsets of the
current ranges). -/
theorem rangeLessOrEqual_inhibit_spec :
    ∀ (s s2 : RangeState) (inhibited : Bool),
      InitialPropagate s = some (s2, inhibited) →
      ((inhibited = true ↔ s2.leftMax ≤ s2.rightMin) ∧
        (inhibited = true →
          ∀ x y : Int, s2.leftMin ≤ x → x ≤ s2.leftMax → s2.rightMin ≤ y → y ≤ s2.rightMax →
            x ≤ y)) := by
  intro s s2 inhibited h
  unfold InitialPropagate at h
  rcases hm1 : leftSetMax s s.rightMax with _ | s1
  · rw [hm1] at h
    simp at h
  · rw [hm1] at h
    dsimp only at h
    rcases hm2 : rightSetMin s1 s1.leftMin with _ | s2x
    · rw [hm2] at h
      simp at h
    · rw [hm2] at h
      simp only [Option.some.injEq, Prod.mk.injEq] at h
      obtain ⟨rfl, rfl⟩ := h
      constructor
      · simp [decide_eq_true_eq]
      · intro hi x y hx1 hx2 hy1 hy2
        rw [decide_eq_true_eq] at hi
        omega

/-- A concrete bound state on which `InitialPropagate` inhibits: left in
`[0, 2]`, right in `[3, 10]`. -/
def rangeSample : RangeState :=
  { leftMin := 0, leftMax := 2, rightMin := 3, rightMax := 10 }

/-- Witness for C8 on `rangeSample`: propagation succeeds without changing
the bounds, the demon is inhibited, and the satisfaction property is applied
at `x = 1`, `y = 3`. -/
theorem rangeLessOrEqual_inhibit_spec_witness :
    (true = true ↔ rangeSample.leftMax ≤ rangeSample.rightMin) ∧ (1 : Int) ≤ 3 :=
  ⟨(rangeLessOrEqual_inhibit_spec rangeSample rangeSample true (by decide)).1,
    (rangeLessOrEqual_inhibit_spec rangeSample rangeSample true (by decide)).2 rfl 1 3
      (by decide) (by decide) (by decide) (by decide)⟩

theorem getD_set_self (l : List Int) (n : Nat) (x : Int) (h : n < l.length) :
    (l.set n x).getD n 0 = x := by
  induction l generalizing n with
  | nil => simp at h
  | cons a t ih =>
    cases n with
    | zero => rfl
    | succ k => simpa using ih k (by simp at h; omega)

theorem getD_append_length (l : List Int) (x : Int) :
    (l ++ [x]).getD l.length 0 = x := by
  induction l with
  | nil => rfl
  | cons a t ih => simp

/-- Modelled from the spec: the data of the `SimpleMinCostFlow` facade: the
parallel per-arc vectors `arc_tail_`, `arc_head_`, `arc_capacity_`,
`arc_cost_` and the per-node vector `node_supply_` (the body of the facade is
not in the sources). -/
structure SimpleMinCostFlow where
  arcTail : List Nat
  arcHead : List Nat
  arcCapacity : List Int
  arcCost : List Int
  nodeSupply : List Int
  deriving DecidableEq, Repr

namespace SimpleMinCostFlow

/-- Modelled from the spec: the state right after construction or `Clear`:
all vectors are empty. -/
def init : SimpleMinCostFlow :=
  { arcTail := [], arcHead := [], arcCapacity := [], arcCost := [], nodeSupply := [] }

/-- `NumArcs` counts the arcs added so far. -/
def NumArcs (m : SimpleMinCostFlow) : Nat := m.arcTail.length

/-- `NumNodes`: the number of lazily created nodes. -/
def NumNodes (m : SimpleMinCostFlow) : Nat := m.nodeSupply.length

/-- Modelled from the spec: `ResizeNodeVectors` lazily grows the node vectors
so that the given node index is legal, with default supply 0. -/
def ResizeNodeVectors (m : SimpleMinCostFlow) (node : Nat) : SimpleMinCostFlow :=
  if node < m.nodeSupply.length then m
  else { m with
    nodeSupply := m.nodeSupply ++ List.replicate (node + 1 - m.nodeSupply.length) 0 }

/-- Modelled from the spec: `SetNodeSupply` resizes the node vectors and
stores the supply. -/
def SetNodeSupply (m : SimpleMinCostFlow) (node : Nat) (supply : Int) : SimpleMinCostFlow :=
  let m2 := m.ResizeNodeVectors node
  { m2 with nodeSupply := m2.nodeSupply.set node supply }

/-- Modelled from the spec: `AddArc` lazily creates the endpoint nodes,
appends the arc with default unit cost 0 and capacity 1, and returns the
previous `NumArcs()`. -/
def AddArc (m : SimpleMinCostFlow) (tail head : Nat) : SimpleMinCostFlow × Nat :=
  let m2 := m.ResizeNodeVectors (max tail head)
  ({ m2 with
      arcTail := m2.arcTail ++ [tail]
      arcHead := m2.arcHead ++ [head]
      arcCapacity := m2.arcCapacity ++ [1]
      arcCost := m2.arcCost ++ [0] },
    m2.arcTail.length)

/-- Modelled from the spec: `SetArcUnitCost` stores the unit cost of an
existing arc. -/
def SetArcUnitCost (m : SimpleMinCostFlow) (arc : Nat) (cost : Int) : SimpleMinCostFlow :=
  { m with arcCost := m.arcCost.set arc cost }

/-- Modelled from the spec: `SetArcCapacity` stores the capacity of an
existing arc. -/
def SetArcCapacity (m : SimpleMinCostFlow) (arc : Nat) (capacity : Int) : SimpleMinCostFlow :=
  { m with arcCapacity := m.arcCapacity.set arc capacity }

/-- `UnitCost` accessor. -/
def UnitCost (m : SimpleMinCostFlow) (arc : Nat) : Int := m.arcCost.getD arc 0

/-- `Capacity` accessor. -/
def Capacity (m : SimpleMinCostFlow) (arc : Nat) : Int := m.arcCapacity.getD arc 0

/-- `Supply` accessor; nodes never touched have the default supply 0. -/
def Supply (m : SimpleMinCostFlow) (node : Nat) : Int := m.nodeSupply.getD node 0

/-- Well-formedness of the facade state: the four per-arc vectors have equal
lengths (true of every state reachable from `init`). -/
def Wf (m : SimpleMinCostFlow) : Prop :=
  m.arcHead.length = m.arcTail.length ∧ m.arcCapacity.length = m.arcTail.length ∧
    m.arcCost.length = m.arcTail.length

instance (m : SimpleMinCostFlow) : Decidable m.Wf := by
  unfold Wf
  infer_instance

theorem Resize_arcTail (m : SimpleMinCostFlow) (node : Nat) :
    (m.ResizeNodeVectors node).arcTail = m.arcTail := by
  unfold ResizeNodeVectors
  split <;> rfl

theorem Resize_arcHead (m : SimpleMinCostFlow) (node : Nat) :
    (m.ResizeNodeVectors node).arcHead = m.arcHead := by
  unfold ResizeNodeVectors
  split <;> rfl

theorem Resize_arcCapacity (m : SimpleMinCostFlow) (node : Nat) :
    (m.ResizeNodeVectors node).arcCapacity = m.arcCapacity := by
  unfold ResizeNodeVectors
  split <;> rfl

theorem Resize_arcCost (m : SimpleMinCostFlow) (node : Nat) :
    (m.ResizeNodeVectors node).arcCost = m.arcCost := by
  unfold ResizeNodeVectors
  split <;> rfl

theorem Resize_length_lt (m : SimpleMinCostFlow) (node : Nat) :
    node < (m.ResizeNodeVectors node).nodeSupply.length := by
  unfold ResizeNodeVectors
  split
  case isTrue h => exact h
  case isFalse h =>
    simp only [List.length_append, List.length_replicate]
    omega

end SimpleMinCostFlow

open SimpleMinCostFlow

/-- Claim C9: set followed by get returns the set value: `Supply` after
`SetNodeSupply`, `UnitCost` after `SetArcUnitCost`, and `Capacity` after
`SetArcCapacity` (the latter two for arcs previously returned by `AddArc`,
i.e. smaller than `NumArcs`). -/
theorem simple_set_get_roundtrip :
    (∀ (m : SimpleMinCostFlow) (v : Nat) (sup : Int),
        Supply (SetNodeSupply m v sup) v = sup) ∧
    (∀ (m : SimpleMinCostFlow) (a : Nat) (c : Int), m.Wf → a < NumArcs m →
        UnitCost (SetArcUnitCost m a c) a = c) ∧
    (∀ (m : SimpleMinCostFlow) (a : Nat) (u : Int), m.Wf → a < NumArcs m →
        Capacity (SetArcCapacity m a u) a = u) := by
  refine ⟨?_, ?_, ?_⟩
  · intro m v sup
    unfold SetNodeSupply Supply
    exact getD_set_self _ v sup (Resize_length_lt m v)
  · intro m a c hwf ha
    unfold SetArcUnitCost UnitCost
    exact getD_set_self _ a c (by unfold Wf at hwf; unfold NumArcs at ha; omega)
  · intro m a u hwf ha
    unfold SetArcCapacity Capacity
    exact getD_set_self _ a u (by unfold Wf at hwf; unfold NumArcs at ha; omega)

/-- Witness for C9 on concrete facade states. -/
theorem simple_set_get_roundtrip_witness :
    Supply (SetNodeSupply init 2 7) 2 = 7 ∧
      UnitCost (SetArcUnitCost (AddArc init 0 1).1 0 5) 0 = 5 ∧
      Capacity (SetArcCapacity (AddArc init 0 1).1 0 9) 0 = 9 :=
  ⟨simple_set_get_roundtrip.1 init 2 7,
    simple_set_get_roundtrip.2.1 (AddArc init 0 1).1 0 5 (by decide) (by decide),
    simple_set_get_roundtrip.2.2 (AddArc init 0 1).1 0 9 (by decide) (by decide)⟩

/-- Folding a list of `AddArc` calls, collecting the returned arc indices. -/
def AddArcSeq (m : SimpleMinCostFlow) : List (Nat × Nat) → SimpleMinCostFlow × List Nat
  | [] => (m, [])
  | p :: ps =>
    let r := AddArc m p.1 p.2
    let rest := AddArcSeq r.1 ps
    (rest.1, r.2 :: rest.2)

theorem AddArc_ret (m : SimpleMinCostFlow) (t h : Nat) :
    (AddArc m t h).2 = NumArcs m := by
  unfold AddArc NumArcs
  simp only
  rw [Resize_arcTail]

theorem AddArc_numArcs (m : SimpleMinCostFlow) (t h : Nat) :
    NumArcs (AddArc m t h).1 = NumArcs m + 1 := by
  unfold AddArc NumArcs
  simp only [List.length_append, List.length_singleton]
  rw [Resize_arcTail]

theorem AddArcSeq_returns (ps : List (Nat × Nat)) :
    ∀ m : SimpleMinCostFlow, (AddArcSeq m ps).2 = List.range' (NumArcs m) ps.length := by
  induction ps with
  | nil =>
    intro m
    rfl
  | cons p t ih =>
    intro m
    show (AddArc m p.1 p.2).2 :: (AddArcSeq (AddArc m p.1 p.2).1 t).2 = _
    rw [ih, AddArc_ret, AddArc_numArcs, List.length_cons, List.range'_succ]

/-- Claim C10: `AddArc` returns the value `NumArcs()` had before the call and
increments `NumArcs` by one, so successive calls starting from a cleared
facade return the consecutive indices `0, 1, ..., k-1`; the new arc has unit
cost 0 and capacity 1 by default; and `AddArc` preserves well-formedness. -/
theorem simple_addArc_spec :
    (∀ (m : SimpleMinCostFlow) (t h : Nat), m.Wf →
        (AddArc m t h).2 = NumArcs m ∧
        NumArcs (AddArc m t h).1 = NumArcs m + 1 ∧
        UnitCost (AddArc m t h).1 (NumArcs m) = 0 ∧
        Capacity (AddArc m t h).1 (NumArcs m) = 1 ∧
        (AddArc m t h).1.Wf) ∧
    (∀ ps : List (Nat × Nat), (AddArcSeq init ps).2 = List.range ps.length) := by
  constructor
  · intro m t h hwf
    obtain ⟨hh, hcap, hcost⟩ := hwf
    refine ⟨AddArc_ret m t h, AddArc_numArcs m t h, ?_, ?_, ?_⟩
    · unfold AddArc UnitCost NumArcs
      simp only
      rw [Resize_arcCost, ← hcost]
      exact getD_append_length m.arcCost 0
    · unfold AddArc Capacity NumArcs
      simp only
      rw [Resize_arcCapacity, ← hcap]
      exact getD_append_length m.arcCapacity 1
    · unfold AddArc Wf
      simp only [List.length_append, List.length_singleton]
      rw [Resize_arcTail, Resize_arcHead, Resize_arcCapacity, Resize_arcCost]
      omega
  · intro ps
    rw [AddArcSeq_returns ps init, List.range_eq_range']
    rfl

/-- Witness for C10: the first two `AddArc` calls on a cleared facade return
0 and 1, and the first arc has the default cost 0 and capacity 1. -/
theorem simple_addArc_spec_witness :
    (AddArc init 0 1).2 = NumArcs init ∧
      UnitCost (AddArc init 0 1).1 0 = 0 ∧
      Capacity (AddArc init 0 1).1 0 = 1 ∧
      (AddArcSeq init [(0, 1), (1, 0)]).2 = [0, 1] :=
  ⟨(simple_addArc_spec.1 init 0 1 (by decide)).1,
    (simple_addArc_spec.1 init 0 1 (by decide)).2.2.1,
    (simple_addArc_spec.1 init 0 1 (by decide)).2.2.2.1,
    simple_addArc_spec.2 [(0, 1), (1, 0)]⟩

end OrTools
